import Mathlib

/-!
# Verification of `fixstr` (`FixStr<N>`): a fixed-capacity stack string

Shallow embedding of `src/lib.rs`.  A Rust `&str` is modelled by its sequence
of Unicode scalar values (`List Nat`, each element a valid scalar value); its
UTF-8 byte representation is recovered by `strBytes`.  Machine bytes (`u8`)
are `Nat` values; every assignment to the `len : u8` field in the source is
guarded by `u8::try_from`, so no wraparound can occur and `Nat` is faithful.
-/

/-- A Unicode scalar value: a code point below `0x110000` that is not a
surrogate. This is the validity invariant of a Rust `char`. -/
def ScalarValue (c : Nat) : Prop :=
  c < 0x110000 ∧ (c < 0xD800 ∨ 0xDFFF < c)

instance (c : Nat) : Decidable (ScalarValue c) := by
  unfold ScalarValue; infer_instance

/-- The UTF-8 encoding of one Unicode scalar value, written arithmetically
(`0xC0 + c / 64` equals `0xC0 | (c >> 6)` on the valid ranges, etc.).  This
models `char::encode_utf8` from the Rust standard library. -/
def utf8EncodeChar (c : Nat) : List Nat :=
  if c < 0x80 then [c]
  else if c < 0x800 then [0xC0 + c / 64, 0x80 + c % 64]
  else if c < 0x10000 then [0xE0 + c / 4096, 0x80 + c / 64 % 64, 0x80 + c % 64]
  else [0xF0 + c / 262144, 0x80 + c / 4096 % 64, 0x80 + c / 64 % 64, 0x80 + c % 64]

/-- The UTF-8 byte representation of a string (given as its scalar values):
`str::as_bytes` in the Rust standard library. -/
def strBytes (s : List Nat) : List Nat :=
  (s.map utf8EncodeChar).flatten

/-- The octet length of a string: `str::len` in the Rust standard library. -/
def strLen (s : List Nat) : Nat :=
  (strBytes s).length

/-- A UTF-8 continuation byte (`10xxxxxx`). -/
def IsCont (b : Nat) : Prop :=
  0x80 ≤ b ∧ b < 0xC0

instance (b : Nat) : Decidable (IsCont b) := by
  unfold IsCont; infer_instance

/-- One step of strict UTF-8 decoding: reads the encoding of a single
Unicode scalar value off the front of a byte list (rejecting overlong forms,
surrogates and out-of-range code points) and returns it with the remaining
bytes; `none` on empty or malformed input. -/
def decodeOne : List Nat → Option (Nat × List Nat)
  | [] => none
  | b0 :: rest =>
    if b0 < 0x80 then some (b0, rest)
    else if b0 < 0xC2 then none
    else if b0 < 0xE0 then
      match rest with
      | b1 :: r => if IsCont b1 then some ((b0 - 0xC0) * 64 + (b1 - 0x80), r) else none
      | [] => none
    else if b0 < 0xF0 then
      match rest with
      | b1 :: b2 :: r =>
        if IsCont b1 ∧ IsCont b2 then
          if 0x800 ≤ (b0 - 0xE0) * 4096 + (b1 - 0x80) * 64 + (b2 - 0x80) ∧
              ((b0 - 0xE0) * 4096 + (b1 - 0x80) * 64 + (b2 - 0x80) < 0xD800 ∨
               0xDFFF < (b0 - 0xE0) * 4096 + (b1 - 0x80) * 64 + (b2 - 0x80)) then
            some ((b0 - 0xE0) * 4096 + (b1 - 0x80) * 64 + (b2 - 0x80), r)
          else none
        else none
      | _ => none
    else if b0 < 0xF5 then
      match rest with
      | b1 :: b2 :: b3 :: r =>
        if IsCont b1 ∧ IsCont b2 ∧ IsCont b3 then
          if 0x10000 ≤ (b0 - 0xF0) * 262144 + (b1 - 0x80) * 4096
                + (b2 - 0x80) * 64 + (b3 - 0x80) ∧
              (b0 - 0xF0) * 262144 + (b1 - 0x80) * 4096
                + (b2 - 0x80) * 64 + (b3 - 0x80) < 0x110000 then
            some ((b0 - 0xF0) * 262144 + (b1 - 0x80) * 4096
                + (b2 - 0x80) * 64 + (b3 - 0x80), r)
          else none
        else none
      | _ => none
    else none

/-- The strict-decoding loop, with the fuel argument bounding the number of
decoded characters (each step of `decodeOne` consumes at least one byte, so
fuel equal to the byte count always suffices). -/
def utf8DecodeLoop : Nat → List Nat → Option (List Nat)
  | _, [] => some []
  | 0, _ :: _ => none
  | fuel + 1, b0 :: rest =>
    match decodeOne (b0 :: rest) with
    | some (c, r) => (utf8DecodeLoop fuel r).map (fun t => c :: t)
    | none => none

/-- A strict UTF-8 decoder: returns the sequence of Unicode scalar values if
the byte list is a well-formed UTF-8 encoding, `none` otherwise.  This models
the semantics of `str::chars` on the byte content of a `&str`. -/
def utf8Decode (l : List Nat) : Option (List Nat) :=
  utf8DecodeLoop l.length l

/-- A byte list is well-formed UTF-8 when the strict decoder accepts it. -/
def Utf8WellFormed (bs : List Nat) : Prop :=
  (utf8Decode bs).isSome

instance (bs : List Nat) : Decidable (Utf8WellFormed bs) := by
  unfold Utf8WellFormed; infer_instance

/-- The struct `FixStr<const N: usize>` from `src/lib.rs`: an inline buffer
`inline: [u8; N]` and a length field `len: u8`.  The `PhantomData` field is
zero-sized and compares equal on all values, so it is omitted.  The derived
`PartialEq`/`Eq` is structural equality on the two fields, matching the
structural equality of this Lean structure. -/
structure FixStr (N : Nat) where
  inline : List Nat
  len : Nat
deriving DecidableEq, Repr

/-- Model of `FixStr::new` from `src/lib.rs`: rejects the input when its octet length
exceeds `N` or `u8::MAX` (255); otherwise zero-initializes an `N`-byte buffer,
copies the encoding into its front, and stores the length through
`u8::try_from(..).ok().map(..)` (modelled by the inner conditional). -/
def FixStr.new (N : Nat) (s : List Nat) : Option (FixStr N) :=
  if strLen s > N ∨ strLen s > 255 then none
  else
    let buffer := strBytes s ++ List.replicate (N - strLen s) 0
    if strLen s ≤ 255 then some ⟨buffer, strLen s⟩ else none

/-- The data carried by the diagnostic message
that the source interpolates as the string, then its octet length in
parentheses, then the words exceeds capacity and `N`: the offending string,
its octet length, and the capacity `N`. -/
structure CapacityMessage where
  content : List Nat
  contentLen : Nat
  capacity : Nat
deriving DecidableEq, Repr

/-- Model of `FixStr::new_unchecked` from `src/lib.rs`:
delegates to `Self::new(s)` and, on `None`, panics with the diagnostic
message interpolating the string, its octet length, and the capacity `N`.
The Rust panic (abort of the current execution path) is modelled as the
`Except.error` branch carrying the message data. -/
def FixStr.new_unchecked (N : Nat) (s : List Nat) : Except CapacityMessage (FixStr N) :=
  match FixStr.new N s with
  | some v => .ok v
  | none => .error ⟨s, strLen s, N⟩

/-- Model of `TryFrom<&str> for FixStr<N>` from `src/lib.rs`:
delegates to `Self::new(s)` and turns `None` into an error message
interpolating the string, its octet length, and the capacity `N`
(`ok_or(format!(..))`); the error `String` is modelled by the data it
interpolates. -/
def FixStr.try_from_str (N : Nat) (s : List Nat) : Except CapacityMessage (FixStr N) :=
  match FixStr.new N s with
  | some v => .ok v
  | none => .error ⟨s, strLen s, N⟩

/-- Model of `TryFrom<String> for FixStr<N>` from `src/lib.rs`: delegates to
`Self::try_from(s.as_str())`; `String::as_str` borrows the same content. -/
def FixStr.try_from_string (N : Nat) (s : List Nat) : Except CapacityMessage (FixStr N) :=
  FixStr.try_from_str N s

/-- The byte content seen by `FixStr::as_str`: the slice
`&self.inline[..self.len as usize]`. -/
def FixStr.byteView {N : Nat} (v : FixStr N) : List Nat :=
  v.inline.take v.len

/-- Model of `FixStr::as_str` from `src/lib.rs`: reinterprets `inline[..len]` as text
(`str::from_utf8_unchecked`).  In the embedding the text denoted by those
bytes is their UTF-8 decoding; on well-formed values the decoder succeeds. -/
def FixStr.as_str {N : Nat} (v : FixStr N) : List Nat :=
  (utf8Decode v.byteView).getD []

/-- Model of `FixStr::char_len` from `src/lib.rs`: `self.as_str().chars().count()`,
the number of Unicode scalar values of the content. -/
def FixStr.char_len {N : Nat} (v : FixStr N) : Nat :=
  v.as_str.length

/-- Model of `FixStr::len` from `src/lib.rs`: `self.len as usize`. -/
def FixStr.len_method {N : Nat} (v : FixStr N) : Nat :=
  v.len

/-- Model of `FixStr::is_empty` from `src/lib.rs`: `self.len() == 0`. -/
def FixStr.is_empty {N : Nat} (v : FixStr N) : Bool :=
  v.len_method == 0

/-- Model of `FixStr::capacity` from `src/lib.rs`: returns `N`. -/
def FixStr.capacity {N : Nat} (_v : FixStr N) : Nat :=
  N

/-- Model of `From<FixStr<N>> for String` from `src/lib.rs`:
`String::from(s.as_str())` — an owned string with exactly the content of
`as_str`. -/
def FixStr.into_string {N : Nat} (v : FixStr N) : List Nat :=
  v.as_str

/-- Model of `fmt::Display for FixStr<N>` from `src/lib.rs`: writes exactly
`self.as_str()`. -/
def FixStr.display {N : Nat} (v : FixStr N) : List Nat :=
  v.as_str

/-- Modelled from the spec: the `Default` value of the container.  The source
file `src/lib.rs` has no `Default` implementation (only the test suite calls
`FixStr::<8>::default()`); the spec (§4.1 Default value) defines it as the
zero-length container with `length = 0` and irrelevant buffer contents, which
for a derived implementation is the zeroed buffer. -/
def FixStr.default_value (N : Nat) : FixStr N :=
  ⟨List.replicate N 0, 0⟩

/-- Lexicographic comparison of byte sequences: elementwise on the common
front, then by length.  This is `Ord` on Rust slices; on equal-length arrays
(`[u8; N]`) it is the derived array comparison. -/
def listCompare : List Nat → List Nat → Ordering
  | [], [] => .eq
  | [], _ :: _ => .lt
  | _ :: _, [] => .gt
  | a :: l, b :: m => (compare a b).then (listCompare l m)

/-- The derived `Ord for FixStr<N>`: compares the fields in declaration
order, `inline` (array comparison) then `len` (`PhantomData` always compares
equal). -/
def FixStr.cmp {N : Nat} (a b : FixStr N) : Ordering :=
  (listCompare a.inline b.inline).then (compare a.len b.len)

/-- The `Ord` of Rust `str` and `String`: lexicographic comparison of the UTF-8
bytes. -/
def strCompare (s t : List Nat) : Ordering :=
  listCompare (strBytes s) (strBytes t)

/-- The data fed to the hasher by the derived `Hash for FixStr<N>`: the
fields in declaration order (the `inline` array, then `len`).  Any
deterministic hasher makes the hash a function of this sequence; we fix one
concrete such function. -/
def FixStr.hashModel {N : Nat} (v : FixStr N) : Nat :=
  (v.inline ++ [v.len]).foldl (fun h x => (h * 31 + x) % 2 ^ 64) 5381

/-! ## Properties of the UTF-8 coding layer -/

theorem decodeOne_length {l : List Nat} {c : Nat} {r : List Nat}
    (h : decodeOne l = some (c, r)) : r.length < l.length := by
  rcases l with _ | ⟨b0, _ | ⟨b1, _ | ⟨b2, _ | ⟨b3, r4⟩⟩⟩⟩ <;>
    simp only [decodeOne] at h <;>
    (try split_ifs at h) <;>
    (try simp_all) <;> omega

theorem utf8DecodeLoop_congr : ∀ (f1 f2 : Nat) (l : List Nat), l.length ≤ f1 → l.length ≤ f2 →
    utf8DecodeLoop f1 l = utf8DecodeLoop f2 l := by
  intro f1
  induction f1 with
  | zero =>
    intro f2 l h1 h2
    have hl : l = [] := by cases l <;> simp_all
    subst hl
    cases f2 <;> rfl
  | succ f ih =>
    intro f2 l h1 h2
    cases l with
    | nil => cases f2 <;> rfl
    | cons b0 rest =>
      cases f2 with
      | zero => simp at h2
      | succ g =>
        simp only [utf8DecodeLoop]
        cases hd : decodeOne (b0 :: rest) with
        | none => rfl
        | some cr =>
          obtain ⟨c, r⟩ := cr
          have hlen := decodeOne_length hd
          simp only [List.length_cons] at h1 h2 hlen
          dsimp only
          rw [ih g r (by omega) (by omega)]

theorem utf8Decode_consume {l : List Nat} {c : Nat} {r : List Nat}
    (h : decodeOne l = some (c, r)) :
    utf8Decode l = (utf8Decode r).map (fun t => c :: t) := by
  have hl := decodeOne_length h
  cases l with
  | nil => simp [decodeOne] at h
  | cons b0 rest =>
    show utf8DecodeLoop (b0 :: rest).length (b0 :: rest) = _
    simp only [List.length_cons, utf8DecodeLoop, h]
    rw [utf8DecodeLoop_congr rest.length r.length r (by simp at hl; omega) (by omega)]
    rfl

theorem decodeOne_encodeChar (c : Nat) (hc : ScalarValue c) (rest : List Nat) :
    decodeOne (utf8EncodeChar c ++ rest) = some (c, rest) := by
  obtain ⟨hlt, hsur⟩ := hc
  unfold utf8EncodeChar
  by_cases h1 : c < 0x80
  · simp only [if_pos h1, List.cons_append, List.nil_append]
    simp [decodeOne, h1]
  · by_cases h2 : c < 0x800
    · simp only [if_neg h1, if_pos h2, List.cons_append, List.nil_append]
      have e1 : ¬ (0xC0 + c / 64 < 0x80) := by omega
      have e2 : ¬ (0xC0 + c / 64 < 0xC2) := by omega
      have e3 : (0xC0 + c / 64) < 0xE0 := by omega
      have e4 : IsCont (0x80 + c % 64) := by unfold IsCont; omega
      have e5 : (0xC0 + c / 64 - 0xC0) * 64 + (0x80 + c % 64 - 0x80) = c := by omega
      simp [decodeOne, e1, e2, e3, e4, e5]
      omega
    · by_cases h3 : c < 0x10000
      · simp only [if_neg h1, if_neg h2, if_pos h3, List.cons_append, List.nil_append]
        have e1 : ¬ (0xE0 + c / 4096 < 0x80) := by omega
        have e2 : ¬ (0xE0 + c / 4096 < 0xC2) := by omega
        have e3 : ¬ (0xE0 + c / 4096 < 0xE0) := by omega
        have e4 : (0xE0 + c / 4096) < 0xF0 := by omega
        have e5 : IsCont (0x80 + c / 64 % 64) := by unfold IsCont; omega
        have e6 : IsCont (0x80 + c % 64) := by unfold IsCont; omega
        have e7 : (0xE0 + c / 4096 - 0xE0) * 4096 + (0x80 + c / 64 % 64 - 0x80) * 64
            + (0x80 + c % 64 - 0x80) = c := by omega
        simp only [decodeOne, if_neg e1, if_neg e2, if_neg e3, if_pos e4, e7]
        rw [if_pos ⟨e5, e6⟩, if_pos (by omega)]
      · simp only [if_neg h1, if_neg h2, if_neg h3, List.cons_append, List.nil_append]
        have e1 : ¬ (0xF0 + c / 262144 < 0x80) := by omega
        have e2 : ¬ (0xF0 + c / 262144 < 0xC2) := by omega
        have e3 : ¬ (0xF0 + c / 262144 < 0xE0) := by omega
        have e4 : ¬ (0xF0 + c / 262144 < 0xF0) := by omega
        have e5 : (0xF0 + c / 262144) < 0xF5 := by omega
        have e6 : IsCont (0x80 + c / 4096 % 64) := by unfold IsCont; omega
        have e7 : IsCont (0x80 + c / 64 % 64) := by unfold IsCont; omega
        have e8 : IsCont (0x80 + c % 64) := by unfold IsCont; omega
        have e9 : (0xF0 + c / 262144 - 0xF0) * 262144 + (0x80 + c / 4096 % 64 - 0x80) * 4096
            + (0x80 + c / 64 % 64 - 0x80) * 64 + (0x80 + c % 64 - 0x80) = c := by omega
        simp only [decodeOne, if_neg e1, if_neg e2, if_neg e3, if_neg e4, if_pos e5, e9]
        rw [if_pos ⟨e6, e7, e8⟩, if_pos (by omega)]

theorem strBytes_cons (c : Nat) (s : List Nat) :
    strBytes (c :: s) = utf8EncodeChar c ++ strBytes s := by
  simp [strBytes]

theorem utf8Decode_strBytes (s : List Nat) (h : ∀ c ∈ s, ScalarValue c) :
    utf8Decode (strBytes s) = some s := by
  induction s with
  | nil => rfl
  | cons c s ih =>
    have hc : ScalarValue c := h c (by simp)
    have hs : ∀ x ∈ s, ScalarValue x := fun x hx => h x (by simp [hx])
    rw [strBytes_cons, utf8Decode_consume (decodeOne_encodeChar c hc (strBytes s)), ih hs]
    rfl

theorem strBytes_injOn {s t : List Nat} (hs : ∀ c ∈ s, ScalarValue c)
    (ht : ∀ c ∈ t, ScalarValue c) (h : strBytes s = strBytes t) : s = t := by
  have := utf8Decode_strBytes s hs
  rw [h, utf8Decode_strBytes t ht] at this
  exact (Option.some_injective _ this).symm

/-! ## Characterization of the constructor -/

theorem FixStr.new_fits {N : Nat} {s : List Nat} (h1 : strLen s ≤ N) (h2 : strLen s ≤ 255) :
    FixStr.new N s = some ⟨strBytes s ++ List.replicate (N - strLen s) 0, strLen s⟩ := by
  have hcond : ¬ (strLen s > N ∨ strLen s > 255) := by omega
  simp [FixStr.new, hcond, h2]

theorem FixStr.new_overflow {N : Nat} {s : List Nat} (h : N < strLen s ∨ 255 < strLen s) :
    FixStr.new N s = none := by
  have hcond : strLen s > N ∨ strLen s > 255 := by omega
  simp [FixStr.new, hcond]

theorem FixStr.byteView_new {N : Nat} {s : List Nat} {v : FixStr N}
    (h : FixStr.new N s = some v) : v.byteView = strBytes s ∧ v.len = strLen s := by
  by_cases h1 : strLen s ≤ N ∧ strLen s ≤ 255
  · rw [FixStr.new_fits h1.1 h1.2] at h
    obtain rfl := Option.some_injective _ h
    constructor
    · show (strBytes s ++ List.replicate (N - strLen s) 0).take (strLen s) = strBytes s
      have : strLen s = (strBytes s).length := rfl
      rw [this, List.take_left]
    · rfl
  · rw [FixStr.new_overflow (by omega)] at h
    exact absurd h (by simp)

theorem FixStr.new_isSome {N : Nat} (s : List Nat) :
    (FixStr.new N s).isSome ↔ strLen s ≤ N ∧ strLen s ≤ 255 := by
  constructor
  · intro h
    by_contra hc
    rw [FixStr.new_overflow (by omega)] at h
    simp at h
  · intro ⟨h1, h2⟩
    rw [FixStr.new_fits h1 h2]
    rfl

/-! ## Ordering lemmas -/

theorem then_lt_left (o : Ordering) : Ordering.then .lt o = .lt := rfl

theorem then_gt_left (o : Ordering) : Ordering.then .gt o = .gt := rfl

theorem then_eq_left (o : Ordering) : Ordering.then .eq o = o := rfl

theorem listCompare_refl (l : List Nat) : listCompare l l = .eq := by
  induction l with
  | nil => rfl
  | cons a l ih =>
    have hc : compare a a = .eq := Nat.compare_eq_eq.mpr rfl
    show (compare a a).then (listCompare l l) = .eq
    rw [hc, ih]
    rfl

theorem listCompare_zeros_not_gt (z : List Nat) :
    listCompare (List.replicate z.length 0) z ≠ .gt := by
  induction z with
  | nil => simp [listCompare]
  | cons d zs ih =>
    show listCompare (0 :: List.replicate zs.length 0) (d :: zs) ≠ .gt
    show (compare 0 d).then (listCompare (List.replicate zs.length 0) zs) ≠ .gt
    cases hd : compare 0 d with
    | lt => simp [then_lt_left]
    | eq => simpa [then_eq_left] using ih
    | gt => exact absurd (Nat.compare_eq_gt.mp hd) (by omega)

theorem listCompare_zeros_not_lt (z : List Nat) :
    listCompare z (List.replicate z.length 0) ≠ .lt := by
  induction z with
  | nil => simp [listCompare]
  | cons d zs ih =>
    show (compare d 0).then (listCompare zs (List.replicate zs.length 0)) ≠ .lt
    cases hd : compare d 0 with
    | lt => exact absurd (Nat.compare_eq_lt.mp hd) (by omega)
    | eq => simpa [then_eq_left] using ih
    | gt => simp [then_gt_left]

theorem compare_succ_succ (m n : Nat) : compare (m + 1) (n + 1) = compare m n := by
  rcases Nat.lt_trichotomy m n with h | h | h
  · rw [Nat.compare_eq_lt.mpr h, Nat.compare_eq_lt.mpr (by omega)]
  · subst h
    rw [Nat.compare_eq_eq.mpr rfl, Nat.compare_eq_eq.mpr rfl]
  · rw [Nat.compare_eq_gt.mpr h, Nat.compare_eq_gt.mpr (by omega)]

theorem listCompare_pad : ∀ (x y : List Nat) (a b : Nat), x.length + a = y.length + b →
    (listCompare (x ++ List.replicate a 0) (y ++ List.replicate b 0)).then
      (compare x.length y.length) = listCompare x y := by
  intro x
  induction x with
  | nil =>
    intro y a b h
    cases y with
    | nil =>
      have hab : a = b := by simpa using h
      subst hab
      simp only [List.nil_append, listCompare_refl, then_eq_left]
      exact Nat.compare_eq_eq.mpr rfl
    | cons d ys =>
      have hlen : a = ((d :: ys) ++ List.replicate b 0).length := by
        simp at h ⊢; omega
      have hng := listCompare_zeros_not_gt ((d :: ys) ++ List.replicate b 0)
      rw [← hlen] at hng
      have hc : compare ([] : List Nat).length ((d :: ys)).length = .lt :=
        Nat.compare_eq_lt.mpr (by simp)
      show (listCompare (List.replicate a 0) ((d :: ys) ++ List.replicate b 0)).then
          (compare ([] : List Nat).length (d :: ys).length) = .lt
      cases hr : listCompare (List.replicate a 0) ((d :: ys) ++ List.replicate b 0) with
      | lt => rw [then_lt_left]
      | eq => rw [then_eq_left, hc]
      | gt => exact absurd hr hng
  | cons c xs ih =>
    intro y a b h
    cases y with
    | nil =>
      have hlen : b = ((c :: xs) ++ List.replicate a 0).length := by
        simp at h ⊢; omega
      have hnl := listCompare_zeros_not_lt ((c :: xs) ++ List.replicate a 0)
      rw [← hlen] at hnl
      have hc : compare ((c :: xs)).length ([] : List Nat).length = .gt :=
        Nat.compare_eq_gt.mpr (by simp)
      show (listCompare ((c :: xs) ++ List.replicate a 0) (List.replicate b 0)).then
          (compare (c :: xs).length ([] : List Nat).length) = .gt
      cases hr : listCompare ((c :: xs) ++ List.replicate a 0) (List.replicate b 0) with
      | lt => exact absurd hr hnl
      | eq => rw [then_eq_left, hc]
      | gt => rw [then_gt_left]
    | cons d ys =>
      show (((compare c d).then
          (listCompare (xs ++ List.replicate a 0) (ys ++ List.replicate b 0))).then
          (compare (c :: xs).length (d :: ys).length)) = (compare c d).then (listCompare xs ys)
      have hsucc : compare ((c :: xs)).length ((d :: ys)).length = compare xs.length ys.length := by
        simp only [List.length_cons]
        exact compare_succ_succ xs.length ys.length
      cases hcd : compare c d with
      | lt => simp only [then_lt_left]
      | gt => simp only [then_gt_left]
      | eq =>
        rw [then_eq_left, then_eq_left, hsucc]
        exact ih ys a b (by simp at h; omega)

/-! ## Byte-length and character-count lemmas -/

theorem utf8EncodeChar_length_pos (c : Nat) : 1 ≤ (utf8EncodeChar c).length := by
  unfold utf8EncodeChar
  split_ifs <;> simp

theorem utf8EncodeChar_length_eq_one (c : Nat) :
    (utf8EncodeChar c).length = 1 ↔ c < 0x80 := by
  unfold utf8EncodeChar
  split_ifs with h1 h2 h3 <;> simp_all

theorem strLen_cons (c : Nat) (s : List Nat) :
    strLen (c :: s) = (utf8EncodeChar c).length + strLen s := by
  simp [strLen, strBytes]

theorem charCount_le_strLen (s : List Nat) : s.length ≤ strLen s := by
  induction s with
  | nil => simp [strLen, strBytes]
  | cons c s ih =>
    rw [List.length_cons, strLen_cons]
    have := utf8EncodeChar_length_pos c
    omega

theorem charCount_eq_strLen_iff (s : List Nat) :
    s.length = strLen s ↔ ∀ c ∈ s, c < 0x80 := by
  induction s with
  | nil => simp [strLen, strBytes]
  | cons c s ih =>
    rw [List.length_cons, strLen_cons]
    have h1 := utf8EncodeChar_length_pos c
    have h2 := charCount_le_strLen s
    have h3 := utf8EncodeChar_length_eq_one c
    constructor
    · intro h
      have he : (utf8EncodeChar c).length = 1 := by omega
      have hs : s.length = strLen s := by omega
      intro x hx
      rcases hx with _ | hx
      · exact h3.mp he
      · exact (ih.mp hs) x (by assumption)
    · intro h
      have hc : c < 0x80 := h c (by simp)
      have he : (utf8EncodeChar c).length = 1 := h3.mpr hc
      have hs : s.length = strLen s := ih.mpr (fun x hx => h x (by simp [hx]))
      omega

/-! ## Reduction of the other constructors to `FixStr::new` -/

theorem FixStr.new_some_elim {N : Nat} {s : List Nat} {v : FixStr N}
    (h : FixStr.new N s = some v) :
    strLen s ≤ N ∧ strLen s ≤ 255 ∧
      v = ⟨strBytes s ++ List.replicate (N - strLen s) 0, strLen s⟩ := by
  have hfit : strLen s ≤ N ∧ strLen s ≤ 255 := (FixStr.new_isSome s).mp (by rw [h]; rfl)
  refine ⟨hfit.1, hfit.2, ?_⟩
  rw [FixStr.new_fits hfit.1 hfit.2] at h
  exact (Option.some_injective _ h).symm

theorem FixStr.new_unchecked_ok {N : Nat} {s : List Nat} {v : FixStr N}
    (h : FixStr.new_unchecked N s = .ok v) : FixStr.new N s = some v := by
  unfold FixStr.new_unchecked at h
  cases hn : FixStr.new N s with
  | some w => rw [hn] at h; simp at h; rw [h]
  | none => rw [hn] at h; simp at h

theorem FixStr.try_from_str_ok {N : Nat} {s : List Nat} {v : FixStr N}
    (h : FixStr.try_from_str N s = .ok v) : FixStr.new N s = some v := by
  unfold FixStr.try_from_str at h
  cases hn : FixStr.new N s with
  | some w => rw [hn] at h; simp at h; rw [h]
  | none => rw [hn] at h; simp at h

theorem FixStr.try_from_string_ok {N : Nat} {s : List Nat} {v : FixStr N}
    (h : FixStr.try_from_string N s = .ok v) : FixStr.new N s = some v :=
  FixStr.try_from_str_ok h

theorem FixStr.anyCtor_new {N : Nat} {s : List Nat} {v : FixStr N}
    (h : FixStr.new N s = some v ∨ FixStr.new_unchecked N s = .ok v ∨
      FixStr.try_from_str N s = .ok v ∨ FixStr.try_from_string N s = .ok v) :
    FixStr.new N s = some v := by
  rcases h with h | h | h | h
  · exact h
  · exact FixStr.new_unchecked_ok h
  · exact FixStr.try_from_str_ok h
  · exact FixStr.try_from_string_ok h

/-! ## The claims -/

/-- C1: for every string `s` and capacity `N`, `FixStr::<N>::new(s)` returns
`Some` if and only if the octet length of `s` is at most `N` and at most 255;
otherwise it returns `None`. -/
theorem fixstr_new_some_iff_capacity (N : Nat) (s : List Nat) :
    (FixStr.new N s).isSome ↔ strLen s ≤ N ∧ strLen s ≤ 255 :=
  FixStr.new_isSome s

/-- C2: for every string `s` of octet length at most `min(N, 255)`, the
container built by `FixStr::<N>::new(s)` holds `s` faithfully: `len()` is the
octet length of `s`, `as_str()` is `s`, and `From<FixStr<N>> for String`
returns exactly `s`. -/
theorem fixstr_roundtrip (N : Nat) (s : List Nat) (hval : ∀ c ∈ s, ScalarValue c)
    (hfit : strLen s ≤ N) (hceil : strLen s ≤ 255) :
    ∃ v : FixStr N, FixStr.new N s = some v ∧ v.len_method = strLen s ∧
      v.as_str = s ∧ v.into_string = s := by
  refine ⟨_, FixStr.new_fits hfit hceil, rfl, ?_, ?_⟩ <;>
  · show (utf8Decode (FixStr.byteView _)).getD [] = s
    have hb : FixStr.byteView (⟨strBytes s ++ List.replicate (N - strLen s) 0,
        strLen s⟩ : FixStr N) = strBytes s := by
      show (strBytes s ++ List.replicate (N - strLen s) 0).take (strLen s) = strBytes s
      have he : strLen s = (strBytes s).length := rfl
      rw [he, List.take_left]
    rw [hb, utf8Decode_strBytes s hval]
    rfl

/-- Witness for C2 at capacity 16 and input `"Hello"`. -/
theorem fixstr_roundtrip_witness :
    (∀ c ∈ [72, 101, 108, 108, 111], ScalarValue c) ∧
    strLen [72, 101, 108, 108, 111] ≤ 16 ∧ strLen [72, 101, 108, 108, 111] ≤ 255 ∧
    (∃ v : FixStr 16, FixStr.new 16 [72, 101, 108, 108, 111] = some v ∧
      v.len_method = strLen [72, 101, 108, 108, 111] ∧
      v.as_str = [72, 101, 108, 108, 111] ∧ v.into_string = [72, 101, 108, 108, 111]) :=
  ⟨by decide, by decide, by decide,
    fixstr_roundtrip 16 [72, 101, 108, 108, 111] (by decide) (by decide) (by decide)⟩

/-- C3: every value produced by a public constructor (`new`, `new_unchecked`,
`TryFrom<&str>`, `TryFrom<String>`) has a well-formed UTF-8 byte content
`inline[0..len]`, so the unchecked reinterpretation in `as_str` never reads
invalid UTF-8. -/
theorem fixstr_utf8_invariant (N : Nat) (s : List Nat) (hval : ∀ c ∈ s, ScalarValue c)
    (v : FixStr N)
    (h : FixStr.new N s = some v ∨ FixStr.new_unchecked N s = .ok v ∨
      FixStr.try_from_str N s = .ok v ∨ FixStr.try_from_string N s = .ok v) :
    Utf8WellFormed v.byteView := by
  have hn := FixStr.anyCtor_new h
  have hbv := (FixStr.byteView_new hn).1
  show (utf8Decode v.byteView).isSome
  rw [hbv, utf8Decode_strBytes s hval]
  rfl

/-- Witness for C3 at capacity 8 and input `"café"`. -/
theorem fixstr_utf8_invariant_witness :
    (∀ c ∈ [99, 97, 102, 233], ScalarValue c) ∧
    FixStr.new 8 [99, 97, 102, 233] =
      some ⟨[99, 97, 102, 195, 169, 0, 0, 0], 5⟩ ∧
    Utf8WellFormed (FixStr.byteView (⟨[99, 97, 102, 195, 169, 0, 0, 0], 5⟩ : FixStr 8)) :=
  ⟨by decide, by decide,
    fixstr_utf8_invariant 8 [99, 97, 102, 233] (by decide) _ (Or.inl (by decide))⟩

/-- C4: for strings `s`, `t` that both fit in capacity `N`, the derived
`Ord` on the containers (full-buffer comparison, then the length field)
coincides with the lexicographic ordering of the strings (the `Ord` of the
growable string type). -/
theorem fixstr_ord_lexicographic (N : Nat) (s t : List Nat) (u v : FixStr N)
    (hs : FixStr.new N s = some u) (ht : FixStr.new N t = some v) :
    FixStr.cmp u v = strCompare s t := by
  obtain ⟨hs1, hs2, rfl⟩ := FixStr.new_some_elim hs
  obtain ⟨ht1, ht2, rfl⟩ := FixStr.new_some_elim ht
  show (listCompare (strBytes s ++ List.replicate (N - strLen s) 0)
      (strBytes t ++ List.replicate (N - strLen t) 0)).then
      (compare (strLen s) (strLen t)) = listCompare (strBytes s) (strBytes t)
  have he : strLen s = (strBytes s).length := rfl
  have he2 : strLen t = (strBytes t).length := rfl
  rw [he, he2]
  exact listCompare_pad (strBytes s) (strBytes t) _ _ (by rw [← he, ← he2]; omega)

/-- Witness for C4 at capacity 4 with inputs `"ab"` and `"b"`. -/
theorem fixstr_ord_lexicographic_witness :
    FixStr.new 4 [97, 98] = some ⟨[97, 98, 0, 0], 2⟩ ∧
    FixStr.new 4 [98] = some ⟨[98, 0, 0, 0], 1⟩ ∧
    FixStr.cmp (⟨[97, 98, 0, 0], 2⟩ : FixStr 4) ⟨[98, 0, 0, 0], 1⟩ =
      strCompare [97, 98] [98] :=
  ⟨by decide, by decide,
    fixstr_ord_lexicographic 4 [97, 98] [98] _ _ (by decide) (by decide)⟩

/-- C5: for strings `s`, `t` that both fit in capacity `N`, the containers
compare equal iff `s = t`, and equal logical content gives identical
hashes (equality and hashing see only the logical content because the
padding is fixed). -/
theorem fixstr_eq_iff_content (N : Nat) (s t : List Nat)
    (hsv : ∀ c ∈ s, ScalarValue c) (htv : ∀ c ∈ t, ScalarValue c)
    (u v : FixStr N) (hs : FixStr.new N s = some u) (ht : FixStr.new N t = some v) :
    (u = v ↔ s = t) ∧ (s = t → u.hashModel = v.hashModel) := by
  constructor
  · constructor
    · intro huv
      have h1 := (FixStr.byteView_new hs).1
      have h2 := (FixStr.byteView_new ht).1
      rw [huv] at h1
      exact strBytes_injOn hsv htv (h1 ▸ h2 ▸ rfl)
    · intro hst
      subst hst
      rw [hs] at ht
      exact Option.some_injective _ ht
  · intro hst
    subst hst
    rw [hs] at ht
    rw [Option.some_injective _ ht]

/-- Witness for C5 at capacity 4 with both inputs `"ab"`. -/
theorem fixstr_eq_iff_content_witness :
    (∀ c ∈ [97, 98], ScalarValue c) ∧
    FixStr.new 4 [97, 98] = some ⟨[97, 98, 0, 0], 2⟩ ∧
    (((⟨[97, 98, 0, 0], 2⟩ : FixStr 4) = ⟨[97, 98, 0, 0], 2⟩ ↔ [97, 98] = [97, 98]) ∧
      ([97, 98] = [97, 98] →
        FixStr.hashModel (⟨[97, 98, 0, 0], 2⟩ : FixStr 4) =
        FixStr.hashModel (⟨[97, 98, 0, 0], 2⟩ : FixStr 4))) :=
  ⟨by decide, by decide,
    fixstr_eq_iff_content 4 [97, 98] [97, 98] (by decide) (by decide) _ _
      (by decide) (by decide)⟩

/-- C6: the default value (modelled from the spec, `src/lib.rs` has no
`Default` implementation) is the zero-length container: `is_empty()` is true
and the `Display` output is the empty string. -/
theorem fixstr_default_empty (N : Nat) :
    (FixStr.default_value N).is_empty = true ∧ (FixStr.default_value N).display = [] :=
  ⟨rfl, rfl⟩

/-- C7: `new_unchecked` agrees with `new` whenever the input fits within
`min(N, 255)` octets, and otherwise panics (modelled as the `Except.error`
outcome) with a diagnostic carrying the string, its octet length, and `N`. -/
theorem fixstr_new_unchecked_spec (N : Nat) (s : List Nat) :
    (strLen s ≤ N ∧ strLen s ≤ 255 →
      ∃ v, FixStr.new N s = some v ∧ FixStr.new_unchecked N s = .ok v) ∧
    (¬(strLen s ≤ N ∧ strLen s ≤ 255) →
      FixStr.new_unchecked N s = .error ⟨s, strLen s, N⟩) := by
  constructor
  · intro ⟨h1, h2⟩
    refine ⟨_, FixStr.new_fits h1 h2, ?_⟩
    unfold FixStr.new_unchecked
    rw [FixStr.new_fits h1 h2]
  · intro h
    unfold FixStr.new_unchecked
    rw [FixStr.new_overflow (by omega)]

/-- Witness for C7: capacity 2 with the 8-octet input `"too long"` panics
with the content, length 8 and capacity 2; capacity 16 with `"Hello"`
succeeds like `new`. -/
theorem fixstr_new_unchecked_witness :
    (∃ v, FixStr.new 16 [72, 101, 108, 108, 111] = some v ∧
      FixStr.new_unchecked 16 [72, 101, 108, 108, 111] = .ok v) ∧
    FixStr.new_unchecked 2 [116, 111, 111, 32, 108, 111, 110, 103] =
      .error ⟨[116, 111, 111, 32, 108, 111, 110, 103], 8, 2⟩ := by
  constructor
  · exact (fixstr_new_unchecked_spec 16 [72, 101, 108, 108, 111]).1 (by decide)
  · have h := (fixstr_new_unchecked_spec 2 [116, 111, 111, 32, 108, 111, 110, 103]).2
      (by decide)
    have hl : strLen [116, 111, 111, 32, 108, 111, 110, 103] = 8 := by decide
    rw [hl] at h
    exact h

/-- C8: for every constructed container, `char_len()` counts the Unicode
scalar values of the content and satisfies `char_len() ≤ len()`, with
equality iff the content is pure ASCII (single-octet characters). -/
theorem fixstr_char_len_le (N : Nat) (s : List Nat) (hval : ∀ c ∈ s, ScalarValue c)
    (v : FixStr N) (h : FixStr.new N s = some v) :
    v.char_len = s.length ∧ v.char_len ≤ v.len_method ∧
      (v.char_len = v.len_method ↔ ∀ c ∈ s, c < 0x80) := by
  have hbv := (FixStr.byteView_new h).1
  have hlen := (FixStr.byteView_new h).2
  have hcl : v.char_len = s.length := by
    show ((utf8Decode v.byteView).getD []).length = s.length
    rw [hbv, utf8Decode_strBytes s hval]
    rfl
  have hlm : v.len_method = strLen s := hlen
  refine ⟨hcl, ?_, ?_⟩
  · rw [hcl, hlm]
    exact charCount_le_strLen s
  · rw [hcl, hlm]
    exact charCount_eq_strLen_iff s

/-- Witness for C8 at capacity 8 and input `"café"`: 4 characters, 5 octets. -/
theorem fixstr_char_len_le_witness :
    (∀ c ∈ [99, 97, 102, 233], ScalarValue c) ∧
    FixStr.new 8 [99, 97, 102, 233] = some ⟨[99, 97, 102, 195, 169, 0, 0, 0], 5⟩ ∧
    (FixStr.char_len (⟨[99, 97, 102, 195, 169, 0, 0, 0], 5⟩ : FixStr 8) = 4 ∧
      FixStr.char_len (⟨[99, 97, 102, 195, 169, 0, 0, 0], 5⟩ : FixStr 8) ≤
        FixStr.len_method (⟨[99, 97, 102, 195, 169, 0, 0, 0], 5⟩ : FixStr 8) ∧
      ¬ (FixStr.char_len (⟨[99, 97, 102, 195, 169, 0, 0, 0], 5⟩ : FixStr 8) =
        FixStr.len_method (⟨[99, 97, 102, 195, 169, 0, 0, 0], 5⟩ : FixStr 8))) := by
  refine ⟨by decide, by decide, ?_⟩
  have h := fixstr_char_len_le 8 [99, 97, 102, 233] (by decide) _ (by decide :
    FixStr.new 8 [99, 97, 102, 233] = some ⟨[99, 97, 102, 195, 169, 0, 0, 0], 5⟩)
  refine ⟨h.1, h.2.1, ?_⟩
  intro hc
  have := h.2.2.mp hc
  exact absurd (this 233 (by decide)) (by decide)

/-- C9: `TryFrom<&str>` returns `Ok(v)` exactly when `new` returns `Some(v)`
with the same value, and returns the descriptive error (string, octet
length, `N`) exactly when `new` returns `None`; `TryFrom<String>` behaves
identically. -/
theorem fixstr_try_from_spec (N : Nat) (s : List Nat) :
    (∀ v, FixStr.try_from_str N s = .ok v ↔ FixStr.new N s = some v) ∧
    (FixStr.new N s = none ↔
      FixStr.try_from_str N s = .error ⟨s, strLen s, N⟩) ∧
    FixStr.try_from_string N s = FixStr.try_from_str N s := by
  refine ⟨?_, ?_, rfl⟩
  · intro v
    constructor
    · exact FixStr.try_from_str_ok
    · intro h
      unfold FixStr.try_from_str
      rw [h]
  · constructor
    · intro h
      unfold FixStr.try_from_str
      rw [h]
    · intro h
      cases hn : FixStr.new N s with
      | none => rfl
      | some w =>
        unfold FixStr.try_from_str at h
        rw [hn] at h
        simp at h

/-- C10: every value produced by a public constructor has a buffer of
exactly `N` bytes whose bytes at positions `len` and above are all zero
(the buffer is zero-initialized before the content is copied in), i.e. the
buffer is the content followed by zero padding. -/
theorem fixstr_zero_padding (N : Nat) (s : List Nat) (v : FixStr N)
    (h : FixStr.new N s = some v ∨ FixStr.new_unchecked N s = .ok v ∨
      FixStr.try_from_str N s = .ok v ∨ FixStr.try_from_string N s = .ok v) :
    v.inline.length = N ∧ v.inline.drop v.len = List.replicate (N - v.len) 0 ∧
      v.inline = v.byteView ++ List.replicate (N - v.len) 0 := by
  have hn := FixStr.anyCtor_new h
  obtain ⟨h1, h2, rfl⟩ := FixStr.new_some_elim hn
  have he : strLen s = (strBytes s).length := rfl
  refine ⟨?_, ?_, ?_⟩
  · show (strBytes s ++ List.replicate (N - strLen s) 0).length = N
    simp [← he]
    omega
  · show (strBytes s ++ List.replicate (N - strLen s) 0).drop (strLen s) =
      List.replicate (N - strLen s) 0
    rw [he, List.drop_left]
  · show strBytes s ++ List.replicate (N - strLen s) 0 =
      (strBytes s ++ List.replicate (N - strLen s) 0).take (strLen s) ++
        List.replicate (N - strLen s) 0
    rw [he, List.take_left]

/-- Witness for C10 at capacity 8 and input `"café"`. -/
theorem fixstr_zero_padding_witness :
    FixStr.new 8 [99, 97, 102, 233] = some ⟨[99, 97, 102, 195, 169, 0, 0, 0], 5⟩ ∧
    ((⟨[99, 97, 102, 195, 169, 0, 0, 0], 5⟩ : FixStr 8).inline.length = 8 ∧
      (⟨[99, 97, 102, 195, 169, 0, 0, 0], 5⟩ : FixStr 8).inline.drop 5 =
        List.replicate 3 0 ∧
      (⟨[99, 97, 102, 195, 169, 0, 0, 0], 5⟩ : FixStr 8).inline =
        FixStr.byteView (⟨[99, 97, 102, 195, 169, 0, 0, 0], 5⟩ : FixStr 8) ++
          List.replicate 3 0) :=
  ⟨by decide,
    fixstr_zero_padding 8 [99, 97, 102, 233] _ (Or.inl (by decide))⟩
